import Mathlib

set_option maxHeartbeats 1000000

namespace JMComicApi

/-!
Shallow embedding of the per-key serialized build-and-cache coordinator of
the JMComic-Api repository.

* `TRState`, `trSet`, `trSetError`, `trGet` embed the `TaskResult` class of
  `src/app/queue/manager.py` (an event flag plus a value/error slot).
* `SysState`, `Step`, `Reachable` embed `KeyedTaskQueue` of the same file as a
  labelled transition system.  Every region of Python code executed while
  holding `self.global_lock` is one atomic transition; code outside the lock
  is split into separate transitions, so all interleavings of `submit` and the
  worker loops that the lock permits are represented.  Python `Queue` objects
  are modelled with explicit identities (`heap` maps a queue id to its
  contents) because a worker keeps a reference to the queue object it read
  from `self.queues`, which `submit` may later recreate.
* `merge_webp_to_pdf`, `validate_or_build`, `get_album_pdf_path` embed the
  cache-validation flow of `src/app/services/album_service.py` and the
  builder `src/app/utils/pdf.py`, with the filesystem and the PyPDF2 probe
  outcomes made explicit inputs.
-/

/-! ### TaskResult (src/app/queue/manager.py, lines 5-23) -/

/-- Terminal outcome of a task as delivered by the worker loop:
`result.set` on success, `result.set_error` on any exception. -/
inductive Outcome where
  | ok
  | err
  deriving DecidableEq, Repr

/-- State of one `TaskResult`: `eventSet` is `self.event`, `value` is
`self.value` (initially `None`), `error` is `self.error`. -/
structure TRState (V E : Type) where
  eventSet : Bool
  value : Option V
  error : Option E
  deriving DecidableEq

/-- `TaskResult.__init__`. -/
def trInit {V E : Type} : TRState V E := ⟨false, none, none⟩

/-- `TaskResult.set`: store the value, then set the event. -/
def trSet {V E : Type} (v : V) (s : TRState V E) : TRState V E :=
  { s with value := some v, eventSet := true }

/-- `TaskResult.set_error`: store the error, then set the event. -/
def trSetError {V E : Type} (e : E) (s : TRState V E) : TRState V E :=
  { s with error := some e, eventSet := true }

/-- `TaskResult.get`: wait on the event (`none` = still blocked), then
re-raise the error if one was stored, else return the value.  (A stored
exception instance is truthy under default `BaseException` semantics, so
`if self.error:` is presence of an error.) -/
def trGet {V E : Type} (s : TRState V E) : Option (Except E (Option V)) :=
  if s.eventSet then
    some (match s.error with
          | some e => Except.error e
          | none => Except.ok s.value)
  else none

/-! ### KeyedTaskQueue (src/app/queue/manager.py, lines 25-66) -/

/-- Program counter of one worker thread running `KeyedTaskQueue._worker`:

* `loopTop`   — about to execute `with self.global_lock: q = self.queues.get(key) ...`
* `tryGet q`  — about to execute `task, result = q.get(timeout=0.1)` on queue object `q`
* `cleanup q` — `q.get` raised `Empty`; about to run the locked cleanup block
* `run q t`   — dequeued task `t`; executing `task()` outside the lock. -/
inductive PC where
  | loopTop
  | tryGet (qid : Nat)
  | cleanup (qid : Nat)
  | run (qid : Nat) (task : Nat)
  deriving DecidableEq, Repr

/-- One live worker thread: the key it serves and its program counter. -/
structure Worker where
  key : String
  pc : PC
  deriving DecidableEq, Repr

/-- Global state of the `KeyedTaskQueue` singleton together with the ghost
bookkeeping needed to state the claims.  Tasks submitted under a key are
numbered `0, 1, 2, ...` in submission order (`submitted` is the next number);
`executed k` lists, in order, the tasks of key `k` whose execution has begun;
`results k t` is the outcome delivered to the `TaskResult` of task `t`. -/
structure SysState where
  dict : String → Option Nat
  heap : Nat → Option (List Nat)
  nextQ : Nat
  active : String → Bool
  workers : List Worker
  submitted : String → Nat
  executed : String → List Nat
  results : String → Nat → Option Outcome

/-- Point update of a `String`-indexed map. -/
def upd {α : Type} (f : String → α) (k : String) (v : α) : String → α :=
  fun x => if x = k then v else f x

/-- Point update of a `Nat`-indexed map. -/
def updN {α : Type} (f : Nat → α) (n : Nat) (v : α) : Nat → α :=
  fun x => if x = n then v else f x

/-- Point update of the results map. -/
def updR (f : String → Nat → Option Outcome) (k : String) (t : Nat)
    (v : Option Outcome) : String → Nat → Option Outcome :=
  fun x y => if x = k ∧ y = t then v else f x y

/-- Tail of `submit` under the lock: `if not self.active.get(key):
self.active[key] = True; threading.Thread(target=self._worker, ...).start()`. -/
def spawnIfIdle (k : String) (s : SysState) : SysState :=
  if s.active k then s
  else { s with active := upd s.active k true,
                workers := s.workers ++ [⟨k, PC.loopTop⟩] }

/-- `KeyedTaskQueue.submit(key, func)`, one atomic step (the whole body runs
under `self.global_lock`): `q = self.queues.setdefault(key, Queue())`,
`q.put((func, result))`, then the activation check. -/
def submitEffect (k : String) (s : SysState) : SysState :=
  match s.dict k with
  | some qid =>
      spawnIfIdle k
        { s with heap := updN s.heap qid ((s.heap qid).map (· ++ [s.submitted k])),
                 submitted := upd s.submitted k (s.submitted k + 1) }
  | none =>
      spawnIfIdle k
        { s with dict := upd s.dict k (some s.nextQ),
                 heap := updN s.heap s.nextQ (some [s.submitted k]),
                 nextQ := s.nextQ + 1,
                 submitted := upd s.submitted k (s.submitted k + 1) }

/-- State before any request: empty queue dict, empty active dict, no
workers, nothing submitted. -/
def initState : SysState :=
  { dict := fun _ => none
    heap := fun _ => none
    nextQ := 0
    active := fun _ => false
    workers := []
    submitted := fun _ => 0
    executed := fun _ => []
    results := fun _ _ => none }

/-- Contents of the queue currently registered for key `k` (empty when no
queue is registered). -/
def pending (s : SysState) (k : String) : List Nat :=
  match s.dict k with
  | none => []
  | some qid => (s.heap qid).getD []

/-- One interleaved step of the system.  Each constructor is one atomic
region of `src/app/queue/manager.py`: a lock-protected block, a single
`q.get` call, or one task execution. -/
inductive Step : SysState → SysState → Prop where
  /-- Any caller runs `submit(k, func)` (entire body under the global lock). -/
  | submit (s : SysState) (k : String) :
      Step s (submitEffect k s)
  /-- Worker, top of loop, under the lock: `q = self.queues.get(key)` found
  `None`: deregister and exit. -/
  | loopNone (s : SysState) (l1 l2 : List Worker) (k : String)
      (hw : s.workers = l1 ++ ⟨k, PC.loopTop⟩ :: l2)
      (hq : s.dict k = none) :
      Step s { s with active := upd s.active k false, workers := l1 ++ l2 }
  /-- Worker, top of loop, under the lock: found queue object `qid`. -/
  | loopSome (s : SysState) (l1 l2 : List Worker) (k : String) (qid : Nat)
      (hw : s.workers = l1 ++ ⟨k, PC.loopTop⟩ :: l2)
      (hq : s.dict k = some qid) :
      Step s { s with workers := l1 ++ ⟨k, PC.tryGet qid⟩ :: l2 }
  /-- `q.get(timeout=0.1)` raised `Empty` (possible only when the queue is
  empty at the timeout deadline). -/
  | timeout (s : SysState) (l1 l2 : List Worker) (k : String) (qid : Nat)
      (hw : s.workers = l1 ++ ⟨k, PC.tryGet qid⟩ :: l2)
      (hq : s.heap qid = some []) :
      Step s { s with workers := l1 ++ ⟨k, PC.cleanup qid⟩ :: l2 }
  /-- `q.get(timeout=0.1)` returned the FIFO head. -/
  | dequeue (s : SysState) (l1 l2 : List Worker) (k : String) (qid : Nat)
      (t : Nat) (rest : List Nat)
      (hw : s.workers = l1 ++ ⟨k, PC.tryGet qid⟩ :: l2)
      (hq : s.heap qid = some (t :: rest)) :
      Step s { s with heap := updN s.heap qid (some rest),
                      executed := upd s.executed k (s.executed k ++ [t]),
                      workers := l1 ++ ⟨k, PC.run qid t⟩ :: l2 }
  /-- Cleanup block under the lock, queue (still) empty: pop the queue from
  the dict, clear the active flag, exit. -/
  | cleanupYes (s : SysState) (l1 l2 : List Worker) (k : String) (qid : Nat)
      (hw : s.workers = l1 ++ ⟨k, PC.cleanup qid⟩ :: l2)
      (hq : s.heap qid = some []) :
      Step s { s with dict := upd s.dict k none,
                      active := upd s.active k false,
                      workers := l1 ++ l2 }
  /-- Cleanup block under the lock, but a task arrived between the timeout
  and the lock acquisition: `continue` back to the top of the loop. -/
  | cleanupNo (s : SysState) (l1 l2 : List Worker) (k : String) (qid : Nat)
      (ts : List Nat)
      (hw : s.workers = l1 ++ ⟨k, PC.cleanup qid⟩ :: l2)
      (hq : s.heap qid = some ts)
      (hne : ts ≠ []) :
      Step s { s with workers := l1 ++ ⟨k, PC.loopTop⟩ :: l2 }
  /-- `val = task(); result.set(val)`: the task ran to completion
  successfully; its result (and no other) is completed. -/
  | runOk (s : SysState) (l1 l2 : List Worker) (k : String) (qid : Nat) (t : Nat)
      (hw : s.workers = l1 ++ ⟨k, PC.run qid t⟩ :: l2) :
      Step s { s with results := updR s.results k t (some Outcome.ok),
                      workers := l1 ++ ⟨k, PC.loopTop⟩ :: l2 }
  /-- The task raised: `except BaseException as e: result.set_error(e)`; the
  worker survives and loops. -/
  | runErr (s : SysState) (l1 l2 : List Worker) (k : String) (qid : Nat) (t : Nat)
      (hw : s.workers = l1 ++ ⟨k, PC.run qid t⟩ :: l2) :
      Step s { s with results := updR s.results k t (some Outcome.err),
                      workers := l1 ++ ⟨k, PC.loopTop⟩ :: l2 }

/-- States reachable from the freshly constructed singleton. -/
inductive Reachable : SysState → Prop where
  | start : Reachable initState
  | step {s s' : SysState} : Reachable s → Step s s' → Reachable s'

/-! ### The artifact cache resolver
(src/app/services/album_service.py and src/app/utils/pdf.py) -/

/-- Behaviour of `reader.decrypt(jm_album_id)` on an existing encrypted file:
it may raise one of the caught classes (`FileNotDecryptedError`,
`DependencyError`, `NotImplementedError`), raise some other `Exception`
(caught by the outer handler), or return a truthiness. -/
inductive DecResult where
  | raisesKnown
  | raisesOther
  | returns (b : Bool)
  deriving DecidableEq, Repr

/-- Observable probe behaviour of a PDF file on disk at the destination path:
whether `PdfReader` succeeds on it, `reader.is_encrypted`, and what
`reader.decrypt(jm_album_id)` does. -/
structure PdfFile where
  readOk : Bool
  isEncrypted : Bool
  decryptRes : DecResult
  deriving DecidableEq, Repr

/-- Which library call inside `merge_webp_to_pdf` raises first, if any. -/
inductive MergeFault where
  | openImages
  | save
  | readBack
  | compress
  | encryptStep
  | finalWrite
  deriving DecidableEq, Repr

/-- Environment of one `merge_webp_to_pdf` call: whether the source folder
has any `.webp` files, and the first failing library call (if any). -/
structure MergeEnv where
  hasWebp : Bool
  fault : Option MergeFault
  deriving DecidableEq, Repr

/-- Errors that escape `merge_webp_to_pdf`. -/
inductive MergeErr where
  | noWebpFound
  | libraryError
  deriving DecidableEq, Repr

/-- A half-written destination file: `PdfReader` raises on it. -/
def corruptFile : PdfFile := ⟨false, false, DecResult.raisesOther⟩

/-- The file produced by a completed write of the merged document with the
given encryption password; probed with credential `probeId`,
`reader.decrypt(probeId)` returns truthy exactly when the passwords match. -/
def builtFile (password : Option String) (probeId : String) : PdfFile :=
  ⟨true, password.isSome, DecResult.returns (password == some probeId)⟩

/-- `merge_webp_to_pdf(folder_path, pdf_path, password)` of
`src/app/utils/pdf.py`, as an effect on the destination file:

1. glob `*.webp`; raise `FileNotFoundError` when none (destination untouched);
2. `Image.open(...).convert("RGB")` for each (destination untouched on failure);
3. `images[0].save(pdf_path, ...)` — on failure a half-written file remains,
   on success the full unencrypted merged document is on disk;
4. `PdfReader(pdf_path)` read-back, page compression loop — failure leaves
   the step-3 file in place;
5. `pdf_writer.encrypt(password)` when a password is given — failure leaves
   the step-3 file in place;
6. `open(pdf_path, "wb"); pdf_writer.write(f)` — the file is truncated and
   rewritten; failure leaves a half-written file.

No branch of the source removes the destination file on failure. -/
def merge_webp_to_pdf (probeId : String) (password : Option String)
    (env : MergeEnv) (file : Option PdfFile) :
    Option PdfFile × Except MergeErr Unit :=
  if env.hasWebp = false then (file, Except.error MergeErr.noWebpFound)
  else
    match env.fault with
    | some MergeFault.openImages => (file, Except.error MergeErr.libraryError)
    | some MergeFault.save => (some corruptFile, Except.error MergeErr.libraryError)
    | some MergeFault.readBack =>
        (some (builtFile none probeId), Except.error MergeErr.libraryError)
    | some MergeFault.compress =>
        (some (builtFile none probeId), Except.error MergeErr.libraryError)
    | some MergeFault.encryptStep =>
        if password.isSome then
          (some (builtFile none probeId), Except.error MergeErr.libraryError)
        else
          (some (builtFile password probeId), Except.ok ())
    | some MergeFault.finalWrite => (some corruptFile, Except.error MergeErr.libraryError)
    | none => (some (builtFile password probeId), Except.ok ())

/-- Observable filesystem actions of one `validate_or_build` run. -/
inductive Action where
  | removeCall
  | buildCall (password : Option String)
  deriving DecidableEq, Repr

instance {ε α : Type} [DecidableEq ε] [DecidableEq α] :
    DecidableEq (Except ε α) := fun a b =>
  match a, b with
  | Except.error e1, Except.error e2 =>
      if h : e1 = e2 then Decidable.isTrue (by rw [h])
      else Decidable.isFalse (by simp [h])
  | Except.error _, Except.ok _ => Decidable.isFalse (by simp)
  | Except.ok _, Except.error _ => Decidable.isFalse (by simp)
  | Except.ok v1, Except.ok v2 =>
      if h : v1 = v2 then Decidable.isTrue (by rw [h])
      else Decidable.isFalse (by simp [h])

/-- Result of one `validate_or_build` run: the final `use_cache` flag, the
filesystem actions performed in order, the destination file afterwards, and
whether the run returned normally or raised. -/
structure VobOut where
  useCache : Bool
  actions : List Action
  file : Option PdfFile
  outcome : Except MergeErr Unit
  deriving DecidableEq, Repr

/-- The cache-validity probe of `validate_or_build` on an existing file
(the body of the `try` around `PdfReader`): computes the value `use_cache`
holds after the probe.  A `PdfReader` failure or any decrypt failure lands in
an `except` branch with `use_cache` false. -/
def probeUseCache (enablePwd : Bool) (f : PdfFile) : Bool :=
  if f.readOk = false then false
  else if enablePwd then
    if f.isEncrypted then
      match f.decryptRes with
      | DecResult.returns true => true
      | _ => false
    else false
  else !f.isEncrypted

/-- The `validate_or_build` closure of `get_album_pdf_path`
(`src/app/services/album_service.py`, lines 56-104), as a function of the
identifier, the request's encryption requirement, whether `os.remove`
succeeds (an `OSError` is caught and logged), the builder environment, and
the destination file currently on disk:

* destination exists → probe it (`probeUseCache`); if invalid, best-effort
  `os.remove`;
* `if not use_cache:` re-check `pdf_path_obj.exists()`; when a file is (still)
  present the run returns reusing it; otherwise call `merge_webp_to_pdf`
  with `password=jm_album_id if enable_pwd else None`. -/
def validate_or_build (jmId : String) (enablePwd removeOk : Bool)
    (env : MergeEnv) (file0 : Option PdfFile) : VobOut :=
  match file0 with
  | some f =>
      if probeUseCache enablePwd f then
        ⟨true, [], some f, Except.ok ()⟩
      else
        if removeOk then
          let pwd := if enablePwd then some jmId else none
          let built := merge_webp_to_pdf jmId pwd env none
          ⟨false, [Action.removeCall, Action.buildCall pwd], built.1, built.2⟩
        else
          ⟨true, [Action.removeCall], some f, Except.ok ()⟩
  | none =>
      let pwd := if enablePwd then some jmId else none
      let built := merge_webp_to_pdf jmId pwd env none
      ⟨false, [Action.buildCall pwd], built.1, built.2⟩

/-- Errors that `get_album_pdf_path` can surface to its caller: a failure of
the first queued task (`ensure_title`, i.e. download/probe of the source
materials) or a failure of the second (`validate_or_build`). -/
inductive ServiceErr where
  | titleError
  | buildError (e : MergeErr)
  deriving DecidableEq, Repr

/-- `sanitize` of `get_album_pdf_path`: strip the characters Windows forbids
in filenames. -/
def sanitize (name : String) : String :=
  String.mk (name.data.filter (fun c => !(("\\/:*?\x22<>|".data).contains c)))

/-- Destination filename from identifier, sanitized title and `title_type`
(`0` → `<id>.pdf`, `1` → `<title>.pdf`, else `[<id>] <title>.pdf`). -/
def pdfFilename (jmId safeTitle : String) (titleType : Int) : String :=
  if titleType = 0 then jmId ++ ".pdf"
  else if titleType = 1 then safeTitle ++ ".pdf"
  else "[" ++ jmId ++ "] " ++ safeTitle ++ ".pdf"

/-- `get_album_pdf_path(jm_album_id, pdf_dir, opt, enable_pwd, title_type)`:
the outcome of the first queued task is `titleRes` (its error re-raised by
`.get()` aborts the call before the second task is submitted); on success
the sanitized title determines the filename, the destination path is the
resolved directory joined with the filename, and the second queued task is
`validate_or_build`.  The returned pair's path component is modelled as an
`Option String` to mirror the caller's `if path is None` check in
`src/app/api/routes.py`. -/
def get_album_pdf_path (jmId pdfDir : String)
    (titleRes : Except ServiceErr String) (enablePwd : Bool) (titleType : Int)
    (removeOk : Bool) (env : MergeEnv) (file0 : Option PdfFile) :
    Except ServiceErr (Option String × String) :=
  match titleRes with
  | Except.error e => Except.error e
  | Except.ok title =>
      let fname := pdfFilename jmId (sanitize title) titleType
      let path := pdfDir ++ "/" ++ fname
      let v := validate_or_build jmId enablePwd removeOk env file0
      match v.outcome with
      | Except.error e => Except.error (ServiceErr.buildError e)
      | Except.ok _ => Except.ok (some path, fname)

/-! ### The executor invariant -/

/-- Inductive invariant of `KeyedTaskQueue`, closed by the lock-atomic
transition relation `Step`:

* `distinct`: no two live workers serve the same key;
* `activeIff`: the active flag of a key holds exactly when a worker for the
  key is live;
* `dictIff`: a queue is registered for a key exactly when the key is active;
* `wq`: a worker that read queue object `qid` from the dict still has `qid`
  registered there while it is between the read and the cleanup block;
* `fresh`/`inj`: registered queue ids are allocated, below the allocation
  counter, and distinct across keys;
* `fifo`: the tasks of a key whose execution has begun, followed by the
  queued ones, are exactly `0, 1, ..., submitted-1` in submission order;
* `running`: a task being executed has no outcome yet and is the most
  recently dequeued task of its key;
* `resDom`: only dequeued tasks have outcomes;
* `complete`: a dequeued task without an outcome is currently being executed
  by a live worker of its key. -/
structure Inv (s : SysState) : Prop where
  distinct : s.workers.Pairwise (fun w1 w2 => w1.key ≠ w2.key)
  activeIff : ∀ k : String, s.active k = true ↔ ∃ w ∈ s.workers, w.key = k
  dictIff : ∀ k : String, (s.dict k).isSome = true ↔ s.active k = true
  wq : ∀ w ∈ s.workers, ∀ qid : Nat,
      (w.pc = PC.tryGet qid ∨ w.pc = PC.cleanup qid) → s.dict w.key = some qid
  fresh : ∀ k qid, s.dict k = some qid → qid < s.nextQ ∧ (s.heap qid).isSome = true
  inj : ∀ k1 k2 qid, s.dict k1 = some qid → s.dict k2 = some qid → k1 = k2
  fifo : ∀ k, s.executed k ++ pending s k = List.range (s.submitted k)
  running : ∀ w ∈ s.workers, ∀ qid t, w.pc = PC.run qid t →
      s.results w.key t = none ∧ (s.executed w.key).getLast? = some t
  resDom : ∀ k t, (s.results k t).isSome = true → t ∈ s.executed k
  complete : ∀ k t, t ∈ s.executed k → s.results k t = none →
      ∃ w ∈ s.workers, w.key = k ∧ ∃ qid, w.pc = PC.run qid t

/-! ### Concrete executions, used as witnesses

`trA*`: submit one task under "A" and one under "B", then the "A" worker
dequeues and completes its task first.  `trB*`: same submissions, but the
"B" worker completes first.  `trE*`: submit two tasks under "A"; the first
raises, the second still executes and succeeds. -/

def trA1 : SysState := submitEffect "A" initState

def trA2 : SysState := submitEffect "B" trA1

def trA3 : SysState := { trA2 with workers := [⟨"A", PC.tryGet 0⟩, ⟨"B", PC.loopTop⟩] }

def trA4 : SysState :=
  { trA3 with heap := updN trA3.heap 0 (some []),
              executed := upd trA3.executed "A" (trA3.executed "A" ++ [0]),
              workers := [⟨"A", PC.run 0 0⟩, ⟨"B", PC.loopTop⟩] }

def trA5 : SysState :=
  { trA4 with results := updR trA4.results "A" 0 (some Outcome.ok),
              workers := [⟨"A", PC.loopTop⟩, ⟨"B", PC.loopTop⟩] }

def trB3 : SysState := { trA2 with workers := [⟨"A", PC.loopTop⟩, ⟨"B", PC.tryGet 1⟩] }

def trB4 : SysState :=
  { trB3 with heap := updN trB3.heap 1 (some []),
              executed := upd trB3.executed "B" (trB3.executed "B" ++ [0]),
              workers := [⟨"A", PC.loopTop⟩, ⟨"B", PC.run 1 0⟩] }

def trB5 : SysState :=
  { trB4 with results := updR trB4.results "B" 0 (some Outcome.ok),
              workers := [⟨"A", PC.loopTop⟩, ⟨"B", PC.loopTop⟩] }

def trE2 : SysState := submitEffect "A" trA1

def trE3 : SysState := { trE2 with workers := [⟨"A", PC.tryGet 0⟩] }

def trE4 : SysState :=
  { trE3 with heap := updN trE3.heap 0 (some [1]),
              executed := upd trE3.executed "A" (trE3.executed "A" ++ [0]),
              workers := [⟨"A", PC.run 0 0⟩] }

def trE5 : SysState :=
  { trE4 with results := updR trE4.results "A" 0 (some Outcome.err),
              workers := [⟨"A", PC.loopTop⟩] }

def trE6 : SysState := { trE5 with workers := [⟨"A", PC.tryGet 0⟩] }

def trE7 : SysState :=
  { trE6 with heap := updN trE6.heap 0 (some []),
              executed := upd trE6.executed "A" (trE6.executed "A" ++ [1]),
              workers := [⟨"A", PC.run 0 1⟩] }

def trE8 : SysState :=
  { trE7 with results := updR trE7.results "A" 1 (some Outcome.ok),
              workers := [⟨"A", PC.loopTop⟩] }

/-! ### List helper lemmas -/

theorem mem_mid_cases {w x : Worker} {l1 l2 : List Worker}
    (h : w ∈ l1 ++ x :: l2) : w ∈ l1 ++ l2 ∨ w = x := by
  simp only [List.mem_append, List.mem_cons] at h ⊢
  tauto

theorem mem_mid_of_mem {w x : Worker} {l1 l2 : List Worker}
    (h : w ∈ l1 ++ l2) : w ∈ l1 ++ x :: l2 := by
  simp only [List.mem_append, List.mem_cons] at h ⊢
  tauto

theorem mem_mid_self (x : Worker) (l1 l2 : List Worker) : x ∈ l1 ++ x :: l2 := by
  simp

theorem key_ne_symm : Symmetric (fun w1 w2 : Worker => w1.key ≠ w2.key) :=
  fun _ _ h => h.symm

theorem pairwise_key_mid {x y : Worker} {l1 l2 : List Worker}
    (h : (l1 ++ x :: l2).Pairwise (fun w1 w2 => w1.key ≠ w2.key))
    (hk : y.key = x.key) :
    (l1 ++ y :: l2).Pairwise (fun w1 w2 => w1.key ≠ w2.key) := by
  rw [List.pairwise_middle (fun h => Ne.symm h)] at h ⊢
  rw [List.pairwise_cons] at h ⊢
  exact ⟨fun b hb => hk ▸ h.1 b hb, h.2⟩

theorem pairwise_key_remove {x : Worker} {l1 l2 : List Worker}
    (h : (l1 ++ x :: l2).Pairwise (fun w1 w2 => w1.key ≠ w2.key)) :
    (l1 ++ l2).Pairwise (fun w1 w2 => w1.key ≠ w2.key) :=
  h.sublist ((List.sublist_cons_self x l2).append_left l1)

theorem key_not_in_side {x w : Worker} {l1 l2 : List Worker}
    (h : (l1 ++ x :: l2).Pairwise (fun w1 w2 => w1.key ≠ w2.key))
    (hw : w ∈ l1 ++ l2) : w.key ≠ x.key := by
  rw [List.pairwise_middle (fun h => Ne.symm h), List.pairwise_cons] at h
  exact fun he => h.1 w hw he.symm

theorem unique_key_mem {l : List Worker}
    (hP : l.Pairwise (fun w1 w2 => w1.key ≠ w2.key))
    {w1 w2 : Worker} (h1 : w1 ∈ l) (h2 : w2 ∈ l) (hk : w1.key = w2.key) :
    w1 = w2 := by
  by_contra hne
  exact List.Pairwise.forall key_ne_symm hP h1 h2 hne hk

theorem exists_key_mid {x y : Worker} {l1 l2 : List Worker}
    (hk : y.key = x.key) (m : String) :
    (∃ w ∈ l1 ++ x :: l2, w.key = m) ↔ (∃ w ∈ l1 ++ y :: l2, w.key = m) := by
  constructor <;> rintro ⟨w, hw, hkey⟩
  · rcases mem_mid_cases hw with h | rfl
    · exact ⟨w, mem_mid_of_mem h, hkey⟩
    · exact ⟨y, mem_mid_self y l1 l2, by rw [hk]; exact hkey⟩
  · rcases mem_mid_cases hw with h | rfl
    · exact ⟨w, mem_mid_of_mem h, hkey⟩
    · exact ⟨x, mem_mid_self x l1 l2, by rw [← hk]; exact hkey⟩

theorem eq_range_of_append {l1 l2 : List Nat} {n : Nat}
    (h : l1 ++ l2 = List.range n) : l1 = List.range l1.length := by
  have hlen : l1.length ≤ n := by
    have := congrArg List.length h
    simp only [List.length_append, List.length_range] at this
    omega
  have h1 : (l1 ++ l2).take l1.length = l1 := List.take_left l1 l2
  rw [h, List.take_range, Nat.min_eq_left hlen] at h1
  exact h1.symm

theorem mem_of_getLast {l : List Nat} {a : Nat} (h : l.getLast? = some a) :
    a ∈ l :=
  List.mem_of_mem_getLast? (Option.mem_def.mpr h)

theorem range_getLast {n t : Nat} (h : (List.range n).getLast? = some t) :
    n = t + 1 := by
  cases n with
  | zero => simp at h
  | succ m =>
      rw [List.range_succ, List.getLast?_concat, Option.some_inj] at h
      omega

/-! ### Map and effect lemmas -/

theorem upd_same {α : Type} (f : String → α) (k : String) (v : α) :
    upd f k v k = v := by
  simp [upd]

theorem upd_ne {α : Type} (f : String → α) (k k' : String) (v : α)
    (h : k' ≠ k) : upd f k v k' = f k' := by
  simp [upd, h]

theorem updN_same {α : Type} (f : Nat → α) (n : Nat) (v : α) :
    updN f n v n = v := by
  simp [updN]

theorem updN_ne {α : Type} (f : Nat → α) (n n' : Nat) (v : α)
    (h : n' ≠ n) : updN f n v n' = f n' := by
  simp [updN, h]

theorem updR_same (f : String → Nat → Option Outcome) (k : String) (t : Nat)
    (v : Option Outcome) : updR f k t v k t = v := by
  simp [updR]

theorem updR_ne (f : String → Nat → Option Outcome) (k : String) (t : Nat)
    (v : Option Outcome) (k' : String) (t' : Nat) (h : ¬(k' = k ∧ t' = t)) :
    updR f k t v k' t' = f k' t' := by
  simp only [updR, if_neg h]

theorem pending_of_none {s : SysState} {k : String} (h : s.dict k = none) :
    pending s k = [] := by
  simp [pending, h]

theorem pending_of_some {s : SysState} {k : String} {qid : Nat} {ts : List Nat}
    (h1 : s.dict k = some qid) (h2 : s.heap qid = some ts) :
    pending s k = ts := by
  simp [pending, h1, h2]

theorem spawnIfIdle_active (k : String) (s : SysState) (h : s.active k = true) :
    spawnIfIdle k s = s := by
  simp [spawnIfIdle, h]

theorem spawnIfIdle_idle (k : String) (s : SysState) (h : s.active k = false) :
    spawnIfIdle k s
      = { s with active := upd s.active k true,
                 workers := s.workers ++ [⟨k, PC.loopTop⟩] } := by
  simp [spawnIfIdle, h]

/-! ### Preservation of the invariant -/

theorem inv_init : Inv initState := by
  refine ⟨?_, ?_, ?_, ?_, ?_, ?_, ?_, ?_, ?_, ?_⟩ <;>
    simp [initState, pending]

theorem inv_submit (s : SysState) (k : String) (hI : Inv s) :
    Inv (submitEffect k s) := by
  cases hd : s.dict k with
  | some qid =>
      have hact : s.active k = true := (hI.dictIff k).1 (by simp [hd])
      obtain ⟨hlt, hsome⟩ := hI.fresh k qid hd
      obtain ⟨ts, hts⟩ := Option.isSome_iff_exists.1 hsome
      simp only [submitEffect, hd]
      have hse : spawnIfIdle k { s with
          heap := updN s.heap qid ((s.heap qid).map (· ++ [s.submitted k])),
          submitted := upd s.submitted k (s.submitted k + 1) }
          = { s with
              heap := updN s.heap qid ((s.heap qid).map (· ++ [s.submitted k])),
              submitted := upd s.submitted k (s.submitted k + 1) } :=
        spawnIfIdle_active k _ hact
      rw [hse]
      refine ⟨hI.distinct, hI.activeIff, hI.dictIff, hI.wq, ?_, hI.inj, ?_,
        hI.running, hI.resDom, hI.complete⟩
      · intro k' qid' hdk
        refine ⟨(hI.fresh k' qid' hdk).1, ?_⟩
        by_cases hq : qid' = qid
        · subst hq
          show (updN s.heap qid' ((s.heap qid').map (· ++ [s.submitted k])) qid').isSome = true
          rw [updN_same, hts]
          rfl
        · show (updN s.heap qid ((s.heap qid).map (· ++ [s.submitted k])) qid').isSome = true
          rw [updN_ne _ _ _ _ hq]
          exact (hI.fresh k' qid' hdk).2
      · intro k'
        by_cases hk : k' = k
        · subst hk
          have hfifo := hI.fifo k'
          rw [pending_of_some hd hts] at hfifo
          show s.executed k' ++ _ = List.range (upd s.submitted k' (s.submitted k' + 1) k')
          rw [upd_same]
          have hp1 : pending { s with
              heap := updN s.heap qid ((s.heap qid).map (· ++ [s.submitted k'])),
              submitted := upd s.submitted k' (s.submitted k' + 1) } k'
              = ts ++ [s.submitted k'] := by
            simp [pending, hd, updN_same, hts]
          rw [hp1, ← List.append_assoc, hfifo, ← List.range_succ]
        · show s.executed k' ++ _ = List.range (upd s.submitted k (s.submitted k + 1) k')
          rw [upd_ne _ _ _ _ hk]
          have hp : pending { s with
              heap := updN s.heap qid ((s.heap qid).map (· ++ [s.submitted k])),
              submitted := upd s.submitted k (s.submitted k + 1) } k'
              = pending s k' := by
            cases hdk : s.dict k' with
            | none => simp [pending, hdk]
            | some q' =>
                have hne : q' ≠ qid := fun he => hk (hI.inj k' k qid (he ▸ hdk) hd)
                simp [pending, hdk, updN_ne _ _ _ _ hne]
          rw [hp]
          exact hI.fifo k'
  | none =>
      have hact : s.active k = false := by
        cases hb : s.active k with
        | false => rfl
        | true =>
            have h2 := (hI.dictIff k).2 hb
            rw [hd] at h2
            simp at h2
      have hnok : ∀ w ∈ s.workers, w.key ≠ k := by
        intro w hw he
        have h2 : s.active k = true := (hI.activeIff k).2 ⟨w, hw, he⟩
        rw [hact] at h2
        exact absurd h2 (by simp)
      simp only [submitEffect, hd]
      have hse : spawnIfIdle k { s with
          dict := upd s.dict k (some s.nextQ),
          heap := updN s.heap s.nextQ (some [s.submitted k]),
          nextQ := s.nextQ + 1,
          submitted := upd s.submitted k (s.submitted k + 1) }
          = { s with
              dict := upd s.dict k (some s.nextQ),
              heap := updN s.heap s.nextQ (some [s.submitted k]),
              nextQ := s.nextQ + 1,
              submitted := upd s.submitted k (s.submitted k + 1),
              active := upd s.active k true,
              workers := s.workers ++ [⟨k, PC.loopTop⟩] } :=
        spawnIfIdle_idle k _ hact
      rw [hse]
      refine ⟨?_, ?_, ?_, ?_, ?_, ?_, ?_, ?_, hI.resDom, ?_⟩
      · show (s.workers ++ [Worker.mk k PC.loopTop]).Pairwise _
        rw [List.pairwise_append]
        refine ⟨hI.distinct, by simp, ?_⟩
        intro a ha b hb
        simp at hb
        rw [hb]
        exact hnok a ha
      · intro k'
        dsimp only
        by_cases hk : k' = k
        · subst hk
          rw [upd_same]
          constructor
          · intro _
            exact ⟨⟨k', PC.loopTop⟩, by simp, rfl⟩
          · intro _
            rfl
        · rw [upd_ne _ _ _ _ hk, hI.activeIff k']
          constructor
          · rintro ⟨w, hw, hkey⟩
            exact ⟨w, List.mem_append_left _ hw, hkey⟩
          · rintro ⟨w, hw, hkey⟩
            rcases List.mem_append.1 hw with h | h
            · exact ⟨w, h, hkey⟩
            · simp at h
              rw [h] at hkey
              exact absurd hkey.symm hk
      · intro k'
        dsimp only
        by_cases hk : k' = k
        · subst hk
          rw [upd_same, upd_same]
          simp
        · rw [upd_ne _ _ _ _ hk, upd_ne _ _ _ _ hk]
          exact hI.dictIff k'
      · intro w hw qid' hpc
        dsimp only at hw ⊢
        rcases List.mem_append.1 hw with h | h
        · rw [upd_ne _ _ _ _ (hnok w h)]
          exact hI.wq w h qid' hpc
        · simp at h
          rw [h] at hpc
          rcases hpc with h' | h' <;> simp at h'
      · intro k' qid' hdk'
        dsimp only at hdk' ⊢
        by_cases hk : k' = k
        · subst hk
          rw [upd_same, Option.some_inj] at hdk'
          subst hdk'
          refine ⟨Nat.lt_succ_self _, ?_⟩
          rw [updN_same]
          rfl
        · rw [upd_ne _ _ _ _ hk] at hdk'
          obtain ⟨h1, h2⟩ := hI.fresh k' qid' hdk'
          refine ⟨Nat.lt_succ_of_lt h1, ?_⟩
          rw [updN_ne _ _ _ _ (Nat.ne_of_lt h1)]
          exact h2
      · intro k1 k2 qid' h1 h2
        dsimp only at h1 h2
        by_cases ha : k1 = k <;> by_cases hb : k2 = k
        · exact ha.trans hb.symm
        · subst ha
          rw [upd_same, Option.some_inj] at h1
          rw [upd_ne _ _ _ _ hb] at h2
          rw [← h1] at h2
          exact absurd (hI.fresh k2 s.nextQ h2).1 (Nat.lt_irrefl _)
        · subst hb
          rw [upd_same, Option.some_inj] at h2
          rw [upd_ne _ _ _ _ ha] at h1
          rw [← h2] at h1
          exact absurd (hI.fresh k1 s.nextQ h1).1 (Nat.lt_irrefl _)
        · rw [upd_ne _ _ _ _ ha] at h1
          rw [upd_ne _ _ _ _ hb] at h2
          exact hI.inj k1 k2 qid' h1 h2
      · intro k'
        by_cases hk : k' = k
        · subst hk
          have h0 := hI.fifo k'
          rw [pending_of_none hd, List.append_nil] at h0
          have hp : pending { s with
              dict := upd s.dict k' (some s.nextQ),
              heap := updN s.heap s.nextQ (some [s.submitted k']),
              nextQ := s.nextQ + 1,
              submitted := upd s.submitted k' (s.submitted k' + 1),
              active := upd s.active k' true,
              workers := s.workers ++ [⟨k', PC.loopTop⟩] } k'
              = [s.submitted k'] := by
            simp [pending, upd_same, updN_same]
          rw [hp]
          show s.executed k' ++ _ = List.range (upd s.submitted k' (s.submitted k' + 1) k')
          rw [upd_same, h0, ← List.range_succ]
        · show s.executed k' ++ _ = List.range (upd s.submitted k (s.submitted k + 1) k')
          rw [upd_ne _ _ _ _ hk]
          have hp : pending { s with
              dict := upd s.dict k (some s.nextQ),
              heap := updN s.heap s.nextQ (some [s.submitted k]),
              nextQ := s.nextQ + 1,
              submitted := upd s.submitted k (s.submitted k + 1),
              active := upd s.active k true,
              workers := s.workers ++ [⟨k, PC.loopTop⟩] } k'
              = pending s k' := by
            cases hdk : s.dict k' with
            | none => simp [pending, hdk, upd_ne _ _ _ _ hk]
            | some q' =>
                have hne : q' ≠ s.nextQ := Nat.ne_of_lt (hI.fresh k' q' hdk).1
                simp [pending, hdk, upd_ne _ _ _ _ hk, updN_ne _ _ _ _ hne]
          rw [hp]
          exact hI.fifo k'
      · intro w hw qid' t hpc
        rcases List.mem_append.1 hw with h | h
        · exact hI.running w h qid' t hpc
        · simp at h
          rw [h] at hpc
          simp at hpc
      · intro k' t h1 h2
        obtain ⟨w, hw, hkey, qid', hpc⟩ := hI.complete k' t h1 h2
        exact ⟨w, List.mem_append_left _ hw, hkey, qid', hpc⟩

theorem activeIff_mid {s : SysState} (hI : Inv s) {l1 l2 : List Worker}
    {x y : Worker} (hw : s.workers = l1 ++ x :: l2) (hk : y.key = x.key)
    (m : String) : s.active m = true ↔ ∃ w ∈ l1 ++ y :: l2, w.key = m := by
  rw [hI.activeIff m]
  constructor
  · rintro ⟨w, hw2, hkey2⟩
    rw [hw] at hw2
    exact (exists_key_mid hk m).1 ⟨w, hw2, hkey2⟩
  · intro hex
    obtain ⟨w, hw2, hkey2⟩ := (exists_key_mid hk m).2 hex
    rw [← hw] at hw2
    exact ⟨w, hw2, hkey2⟩

theorem inv_loopNone_absurd (s : SysState) (l1 l2 : List Worker) (k : String)
    (hw : s.workers = l1 ++ ⟨k, PC.loopTop⟩ :: l2)
    (hq : s.dict k = none) (hI : Inv s) : False := by
  have hmem : (⟨k, PC.loopTop⟩ : Worker) ∈ s.workers := by
    rw [hw]
    exact mem_mid_self _ _ _
  have hact : s.active k = true := (hI.activeIff k).2 ⟨_, hmem, rfl⟩
  have h2 := (hI.dictIff k).2 hact
  rw [hq] at h2
  simp at h2

theorem inv_repc (s : SysState) (l1 l2 : List Worker) (x y : Worker)
    (hw : s.workers = l1 ++ x :: l2) (hI : Inv s)
    (hkey : y.key = x.key)
    (hxr : ∀ qid t, x.pc ≠ PC.run qid t)
    (hyr : ∀ qid t, y.pc ≠ PC.run qid t)
    (hywq : ∀ qid, (y.pc = PC.tryGet qid ∨ y.pc = PC.cleanup qid) →
        s.dict y.key = some qid) :
    Inv { s with workers := l1 ++ y :: l2 } := by
  have hP : (l1 ++ x :: l2).Pairwise (fun w1 w2 => w1.key ≠ w2.key) := by
    rw [← hw]
    exact hI.distinct
  refine ⟨?_, ?_, hI.dictIff, ?_, hI.fresh, hI.inj, hI.fifo, ?_, hI.resDom, ?_⟩
  · dsimp only
    exact pairwise_key_mid hP hkey
  · intro m
    dsimp only
    exact activeIff_mid hI hw hkey m
  · intro w hw2 qid hpc
    dsimp only at hw2 ⊢
    rcases mem_mid_cases hw2 with h | rfl
    · exact hI.wq w (by rw [hw]; exact mem_mid_of_mem h) qid hpc
    · exact hywq qid hpc
  · intro w hw2 qid t hpc
    dsimp only at hw2 ⊢
    rcases mem_mid_cases hw2 with h | rfl
    · exact hI.running w (by rw [hw]; exact mem_mid_of_mem h) qid t hpc
    · exact absurd hpc (hyr qid t)
  · intro k t h1 h2
    dsimp only at h1 h2 ⊢
    obtain ⟨w, hw2, hkey2, qid, hpc⟩ := hI.complete k t h1 h2
    rw [hw] at hw2
    rcases mem_mid_cases hw2 with h | rfl
    · exact ⟨w, mem_mid_of_mem h, hkey2, qid, hpc⟩
    · exact absurd hpc (hxr qid t)

theorem inv_dequeue (s : SysState) (l1 l2 : List Worker) (k : String)
    (qid t : Nat) (rest : List Nat)
    (hw : s.workers = l1 ++ ⟨k, PC.tryGet qid⟩ :: l2)
    (hq : s.heap qid = some (t :: rest)) (hI : Inv s) :
    Inv { s with heap := updN s.heap qid (some rest),
                 executed := upd s.executed k (s.executed k ++ [t]),
                 workers := l1 ++ ⟨k, PC.run qid t⟩ :: l2 } := by
  have hP : (l1 ++ (⟨k, PC.tryGet qid⟩ : Worker) :: l2).Pairwise
      (fun w1 w2 => w1.key ≠ w2.key) := by
    rw [← hw]
    exact hI.distinct
  have hmem : (⟨k, PC.tryGet qid⟩ : Worker) ∈ s.workers := by
    rw [hw]
    exact mem_mid_self _ _ _
  have hdict : s.dict k = some qid := hI.wq _ hmem qid (Or.inl rfl)
  have hfifo := hI.fifo k
  rw [pending_of_some hdict hq] at hfifo
  have hnodup : (s.executed k ++ t :: rest).Nodup := by
    rw [hfifo]
    exact List.nodup_range _
  have htnotex : t ∉ s.executed k := by
    intro hmem2
    rcases List.nodup_append.1 hnodup with ⟨_, _, hdisj⟩
    exact hdisj hmem2 (by simp)
  have hresnone : s.results k t = none := by
    cases hr : s.results k t with
    | none => rfl
    | some o => exact absurd (hI.resDom k t (by rw [hr]; rfl)) htnotex
  refine ⟨?_, ?_, hI.dictIff, ?_, ?_, hI.inj, ?_, ?_, ?_, ?_⟩
  · dsimp only
    exact pairwise_key_mid hP rfl
  · intro m
    dsimp only
    exact @activeIff_mid s hI l1 l2 ⟨k, PC.tryGet qid⟩ ⟨k, PC.run qid t⟩ hw rfl m
  · intro w hw2 qid' hpc
    dsimp only at hw2 ⊢
    rcases mem_mid_cases hw2 with h | rfl
    · exact hI.wq w (by rw [hw]; exact mem_mid_of_mem h) qid' hpc
    · rcases hpc with h' | h' <;> simp at h'
  · intro k' qid' hdk
    dsimp only at hdk ⊢
    obtain ⟨h1, h2⟩ := hI.fresh k' qid' hdk
    refine ⟨h1, ?_⟩
    by_cases he : qid' = qid
    · subst he
      rw [updN_same]
      rfl
    · rw [updN_ne _ _ _ _ he]
      exact h2
  · intro k'
    dsimp only
    by_cases hk : k' = k
    · subst hk
      rw [upd_same]
      have hp : pending { s with
          heap := updN s.heap qid (some rest),
          executed := upd s.executed k' (s.executed k' ++ [t]),
          workers := l1 ++ ⟨k', PC.run qid t⟩ :: l2 } k' = rest := by
        simp [pending, hdict, updN_same]
      rw [hp, List.append_assoc]
      exact hfifo
    · rw [upd_ne _ _ _ _ hk]
      have hp : pending { s with
          heap := updN s.heap qid (some rest),
          executed := upd s.executed k (s.executed k ++ [t]),
          workers := l1 ++ ⟨k, PC.run qid t⟩ :: l2 } k' = pending s k' := by
        cases hdk : s.dict k' with
        | none => simp [pending, hdk]
        | some q' =>
            have hne : q' ≠ qid := fun he => hk (hI.inj k' k qid (he ▸ hdk) hdict)
            simp [pending, hdk, updN_ne _ _ _ _ hne]
      rw [hp]
      exact hI.fifo k'
  · intro w hw2 qid' t' hpc
    dsimp only at hw2 ⊢
    rcases mem_mid_cases hw2 with h | rfl
    · have hkn : w.key ≠ k := key_not_in_side hP h
      have hold := hI.running w (by rw [hw]; exact mem_mid_of_mem h) qid' t' hpc
      refine ⟨hold.1, ?_⟩
      rw [upd_ne _ _ _ _ hkn]
      exact hold.2
    · have hpc' : PC.run qid t = PC.run qid' t' := hpc
      injection hpc' with h1 h2
      subst h1
      subst h2
      refine ⟨hresnone, ?_⟩
      rw [upd_same]
      exact List.getLast?_concat _
  · intro k' t' hr
    dsimp only at hr ⊢
    have hold := hI.resDom k' t' hr
    by_cases hk : k' = k
    · subst hk
      rw [upd_same]
      exact List.mem_append_left _ hold
    · rw [upd_ne _ _ _ _ hk]
      exact hold
  · intro k' t' h1 h2
    dsimp only at h1 h2 ⊢
    by_cases hk : k' = k
    · subst hk
      rw [upd_same] at h1
      rcases List.mem_append.1 h1 with h1' | h1'
      · obtain ⟨w, hw2, hkey2, qid'', hpc⟩ := hI.complete k' t' h1' h2
        rw [hw] at hw2
        rcases mem_mid_cases hw2 with h | rfl
        · exact ⟨w, mem_mid_of_mem h, hkey2, qid'', hpc⟩
        · have hpc' : PC.tryGet qid = PC.run qid'' t' := hpc
          simp at hpc'
      · simp at h1'
        subst h1'
        exact ⟨⟨k', PC.run qid t'⟩, mem_mid_self _ _ _, rfl, qid, rfl⟩
    · rw [upd_ne _ _ _ _ hk] at h1
      obtain ⟨w, hw2, hkey2, qid'', hpc⟩ := hI.complete k' t' h1 h2
      rw [hw] at hw2
      rcases mem_mid_cases hw2 with h | rfl
      · exact ⟨w, mem_mid_of_mem h, hkey2, qid'', hpc⟩
      · have hpc' : PC.tryGet qid = PC.run qid'' t' := hpc
        simp at hpc'

theorem inv_cleanupYes (s : SysState) (l1 l2 : List Worker) (k : String)
    (qid : Nat)
    (hw : s.workers = l1 ++ ⟨k, PC.cleanup qid⟩ :: l2)
    (hq : s.heap qid = some []) (hI : Inv s) :
    Inv { s with dict := upd s.dict k none,
                 active := upd s.active k false,
                 workers := l1 ++ l2 } := by
  have hP : (l1 ++ (⟨k, PC.cleanup qid⟩ : Worker) :: l2).Pairwise
      (fun w1 w2 => w1.key ≠ w2.key) := by
    rw [← hw]
    exact hI.distinct
  have hmem : (⟨k, PC.cleanup qid⟩ : Worker) ∈ s.workers := by
    rw [hw]
    exact mem_mid_self _ _ _
  have hdict : s.dict k = some qid := hI.wq _ hmem qid (Or.inr rfl)
  have hside : ∀ w ∈ l1 ++ l2, w.key ≠ k := fun w h => key_not_in_side hP h
  refine ⟨pairwise_key_remove hP, ?_, ?_, ?_, ?_, ?_, ?_, ?_, hI.resDom, ?_⟩
  · intro m
    dsimp only
    by_cases hm : m = k
    · subst hm
      rw [upd_same]
      constructor
      · intro h
        exact absurd h (by simp)
      · rintro ⟨w, hw2, hkey2⟩
        exact absurd hkey2 (hside w hw2)
    · rw [upd_ne _ _ _ _ hm, hI.activeIff m]
      constructor
      · rintro ⟨w, hw2, hkey2⟩
        rw [hw] at hw2
        rcases mem_mid_cases hw2 with h | rfl
        · exact ⟨w, h, hkey2⟩
        · exact absurd hkey2.symm hm
      · rintro ⟨w, hw2, hkey2⟩
        exact ⟨w, by rw [hw]; exact mem_mid_of_mem hw2, hkey2⟩
  · intro m
    dsimp only
    by_cases hm : m = k
    · subst hm
      rw [upd_same, upd_same]
      simp
    · rw [upd_ne _ _ _ _ hm, upd_ne _ _ _ _ hm]
      exact hI.dictIff m
  · intro w hw2 qid' hpc
    dsimp only at hw2 ⊢
    rw [upd_ne _ _ _ _ (hside w hw2)]
    exact hI.wq w (by rw [hw]; exact mem_mid_of_mem hw2) qid' hpc
  · intro k' qid' hdk
    dsimp only at hdk ⊢
    by_cases hm : k' = k
    · subst hm
      rw [upd_same] at hdk
      simp at hdk
    · rw [upd_ne _ _ _ _ hm] at hdk
      exact hI.fresh k' qid' hdk
  · intro k1 k2 qid' h1 h2
    dsimp only at h1 h2
    by_cases h1k : k1 = k
    · subst h1k
      rw [upd_same] at h1
      simp at h1
    · by_cases h2k : k2 = k
      · subst h2k
        rw [upd_same] at h2
        simp at h2
      · rw [upd_ne _ _ _ _ h1k] at h1
        rw [upd_ne _ _ _ _ h2k] at h2
        exact hI.inj k1 k2 qid' h1 h2
  · intro k'
    dsimp only
    by_cases hm : k' = k
    · subst hm
      have hp : pending { s with
          dict := upd s.dict k' none,
          active := upd s.active k' false,
          workers := l1 ++ l2 } k' = [] := by
        simp [pending, upd_same]
      rw [hp]
      have hold := hI.fifo k'
      rw [pending_of_some hdict hq, List.append_nil] at hold
      rw [List.append_nil]
      exact hold
    · have hp : pending { s with
          dict := upd s.dict k none,
          active := upd s.active k false,
          workers := l1 ++ l2 } k'
          = pending s k' := by
        cases hdk : s.dict k' with
        | none => simp [pending, hdk, upd_ne _ _ _ _ hm]
        | some q' => simp [pending, hdk, upd_ne _ _ _ _ hm]
      rw [hp]
      exact hI.fifo k'
  · intro w hw2 qid' t hpc
    dsimp only at hw2 ⊢
    exact hI.running w (by rw [hw]; exact mem_mid_of_mem hw2) qid' t hpc
  · intro k' t h1 h2
    dsimp only at h1 h2 ⊢
    obtain ⟨w, hw2, hkey2, qid'', hpc⟩ := hI.complete k' t h1 h2
    rw [hw] at hw2
    rcases mem_mid_cases hw2 with h | rfl
    · exact ⟨w, h, hkey2, qid'', hpc⟩
    · have hpc' : PC.cleanup qid = PC.run qid'' t := hpc
      simp at hpc'

theorem inv_runDone (s : SysState) (l1 l2 : List Worker) (k : String)
    (qid t : Nat) (o : Outcome)
    (hw : s.workers = l1 ++ ⟨k, PC.run qid t⟩ :: l2) (hI : Inv s) :
    Inv { s with results := updR s.results k t (some o),
                 workers := l1 ++ ⟨k, PC.loopTop⟩ :: l2 } := by
  have hP : (l1 ++ (⟨k, PC.run qid t⟩ : Worker) :: l2).Pairwise
      (fun w1 w2 => w1.key ≠ w2.key) := by
    rw [← hw]
    exact hI.distinct
  have hmem : (⟨k, PC.run qid t⟩ : Worker) ∈ s.workers := by
    rw [hw]
    exact mem_mid_self _ _ _
  obtain ⟨hnone, hlast⟩ := hI.running _ hmem qid t rfl
  refine ⟨?_, ?_, hI.dictIff, ?_, hI.fresh, hI.inj, hI.fifo, ?_, ?_, ?_⟩
  · dsimp only
    exact pairwise_key_mid hP rfl
  · intro m
    dsimp only
    exact @activeIff_mid s hI l1 l2 ⟨k, PC.run qid t⟩ ⟨k, PC.loopTop⟩ hw rfl m
  · intro w hw2 qid' hpc
    dsimp only at hw2 ⊢
    rcases mem_mid_cases hw2 with h | rfl
    · exact hI.wq w (by rw [hw]; exact mem_mid_of_mem h) qid' hpc
    · rcases hpc with h' | h' <;> simp at h'
  · intro w hw2 qid' t' hpc
    dsimp only at hw2 ⊢
    rcases mem_mid_cases hw2 with h | rfl
    · have hkn : w.key ≠ k := key_not_in_side hP h
      have hold := hI.running w (by rw [hw]; exact mem_mid_of_mem h) qid' t' hpc
      refine ⟨?_, hold.2⟩
      rw [updR_ne _ _ _ _ _ _ (fun hc => hkn hc.1)]
      exact hold.1
    · have hpc' : PC.loopTop = PC.run qid' t' := hpc
      simp at hpc'
  · intro k' t' hr
    dsimp only at hr ⊢
    by_cases hc : k' = k ∧ t' = t
    · rcases hc with ⟨rfl, rfl⟩
      exact mem_of_getLast hlast
    · rw [updR_ne _ _ _ _ _ _ hc] at hr
      exact hI.resDom k' t' hr
  · intro k' t' h1 h2
    dsimp only at h1 h2 ⊢
    by_cases hc : k' = k ∧ t' = t
    · rcases hc with ⟨rfl, rfl⟩
      rw [updR_same] at h2
      simp at h2
    · rw [updR_ne _ _ _ _ _ _ hc] at h2
      obtain ⟨w, hw2, hkey2, qid'', hpc⟩ := hI.complete k' t' h1 h2
      rw [hw] at hw2
      rcases mem_mid_cases hw2 with h | rfl
      · exact ⟨w, mem_mid_of_mem h, hkey2, qid'', hpc⟩
      · exfalso
        apply hc
        have hpc' : PC.run qid t = PC.run qid'' t' := hpc
        injection hpc' with hq1 hq2
        exact ⟨hkey2.symm, hq2.symm⟩

theorem inv_step {s s' : SysState} (hI : Inv s) (h : Step s s') : Inv s' := by
  cases h with
  | submit k => exact inv_submit s k hI
  | loopNone l1 l2 k hw hq =>
      exact (inv_loopNone_absurd s l1 l2 k hw hq hI).elim
  | loopSome l1 l2 k qid hw hq =>
      refine inv_repc s l1 l2 ⟨k, PC.loopTop⟩ ⟨k, PC.tryGet qid⟩ hw hI rfl
        (fun _ _ h => PC.noConfusion h) (fun _ _ h => PC.noConfusion h) ?_
      intro qid' hpc
      rcases hpc with h | h
      · have h' : PC.tryGet qid = PC.tryGet qid' := h
        injection h' with h2
        rw [← h2]
        exact hq
      · exact absurd h (by simp)
  | timeout l1 l2 k qid hw hq =>
      have hmem : (⟨k, PC.tryGet qid⟩ : Worker) ∈ s.workers := by
        rw [hw]
        exact mem_mid_self _ _ _
      have hdict := hI.wq _ hmem qid (Or.inl rfl)
      refine inv_repc s l1 l2 ⟨k, PC.tryGet qid⟩ ⟨k, PC.cleanup qid⟩ hw hI rfl
        (fun _ _ h => PC.noConfusion h) (fun _ _ h => PC.noConfusion h) ?_
      intro qid' hpc
      rcases hpc with h | h
      · exact absurd h (by simp)
      · have h' : PC.cleanup qid = PC.cleanup qid' := h
        injection h' with h2
        rw [← h2]
        exact hdict
  | dequeue l1 l2 k qid t rest hw hq =>
      exact inv_dequeue s l1 l2 k qid t rest hw hq hI
  | cleanupYes l1 l2 k qid hw hq =>
      exact inv_cleanupYes s l1 l2 k qid hw hq hI
  | cleanupNo l1 l2 k qid ts hw hq hne =>
      refine inv_repc s l1 l2 ⟨k, PC.cleanup qid⟩ ⟨k, PC.loopTop⟩ hw hI rfl
        (fun _ _ h => PC.noConfusion h) (fun _ _ h => PC.noConfusion h) ?_
      intro qid' hpc
      rcases hpc with h | h <;> exact absurd h (by simp)
  | runOk l1 l2 k qid t hw =>
      exact inv_runDone s l1 l2 k qid t Outcome.ok hw hI
  | runErr l1 l2 k qid t hw =>
      exact inv_runDone s l1 l2 k qid t Outcome.err hw hI

theorem inv_reachable {s : SysState} (h : Reachable s) : Inv s := by
  induction h with
  | start => exact inv_init
  | step hr hst ih => exact inv_step ih hst

/-! ### Reachability of the concrete executions -/

theorem reach_trA1 : Reachable trA1 :=
  Reachable.step Reachable.start (Step.submit initState "A")

theorem reach_trA2 : Reachable trA2 :=
  Reachable.step reach_trA1 (Step.submit trA1 "B")

theorem reach_trA3 : Reachable trA3 :=
  Reachable.step reach_trA2
    (Step.loopSome trA2 [] [⟨"B", PC.loopTop⟩] "A" 0 (by decide) (by decide))

theorem reach_trA4 : Reachable trA4 :=
  Reachable.step reach_trA3
    (Step.dequeue trA3 [] [⟨"B", PC.loopTop⟩] "A" 0 0 [] (by decide) (by decide))

theorem reach_trA5 : Reachable trA5 :=
  Reachable.step reach_trA4
    (Step.runOk trA4 [] [⟨"B", PC.loopTop⟩] "A" 0 0 (by decide))

theorem reach_trB3 : Reachable trB3 :=
  Reachable.step reach_trA2
    (Step.loopSome trA2 [⟨"A", PC.loopTop⟩] [] "B" 1 (by decide) (by decide))

theorem reach_trB4 : Reachable trB4 :=
  Reachable.step reach_trB3
    (Step.dequeue trB3 [⟨"A", PC.loopTop⟩] [] "B" 1 0 [] (by decide) (by decide))

theorem reach_trB5 : Reachable trB5 :=
  Reachable.step reach_trB4
    (Step.runOk trB4 [⟨"A", PC.loopTop⟩] [] "B" 1 0 (by decide))

theorem reach_trE2 : Reachable trE2 :=
  Reachable.step reach_trA1 (Step.submit trA1 "A")

theorem reach_trE3 : Reachable trE3 :=
  Reachable.step reach_trE2
    (Step.loopSome trE2 [] [] "A" 0 (by decide) (by decide))

theorem reach_trE4 : Reachable trE4 :=
  Reachable.step reach_trE3
    (Step.dequeue trE3 [] [] "A" 0 0 [1] (by decide) (by decide))

theorem reach_trE5 : Reachable trE5 :=
  Reachable.step reach_trE4
    (Step.runErr trE4 [] [] "A" 0 0 (by decide))

theorem reach_trE6 : Reachable trE6 :=
  Reachable.step reach_trE5
    (Step.loopSome trE5 [] [] "A" 0 (by decide) (by decide))

theorem reach_trE7 : Reachable trE7 :=
  Reachable.step reach_trE6
    (Step.dequeue trE6 [] [] "A" 0 1 [] (by decide) (by decide))

theorem reach_trE8 : Reachable trE8 :=
  Reachable.step reach_trE7
    (Step.runOk trE7 [] [] "A" 0 1 (by decide))

/-! ### Outcome stability -/

theorem submitEffect_results (k : String) (s : SysState) :
    (submitEffect k s).results = s.results := by
  unfold submitEffect spawnIfIdle
  cases s.dict k <;> dsimp only <;> split <;> rfl

theorem reachable_rtg {s s' : SysState} (h : Reachable s)
    (hr : Relation.ReflTransGen Step s s') : Reachable s' := by
  induction hr with
  | refl => exact h
  | tail hab hbc ih => exact Reachable.step ih hbc

theorem step_results_mono {s s' : SysState} (hI : Inv s) (hst : Step s s')
    {k : String} {t : Nat} {o : Outcome}
    (h : s.results k t = some o) : s'.results k t = some o := by
  cases hst with
  | submit k' =>
      rw [submitEffect_results]
      exact h
  | loopNone l1 l2 k' hw hq => exact h
  | loopSome l1 l2 k' qid hw hq => exact h
  | timeout l1 l2 k' qid hw hq => exact h
  | dequeue l1 l2 k' qid t' rest hw hq => exact h
  | cleanupYes l1 l2 k' qid hw hq => exact h
  | cleanupNo l1 l2 k' qid ts hw hq hne => exact h
  | runOk l1 l2 k' qid t' hw =>
      dsimp only
      have hmem : (⟨k', PC.run qid t'⟩ : Worker) ∈ s.workers := by
        rw [hw]
        exact mem_mid_self _ _ _
      have hnone := (hI.running _ hmem qid t' rfl).1
      by_cases hc : k = k' ∧ t = t'
      · exfalso
        rcases hc with ⟨rfl, rfl⟩
        rw [hnone] at h
        exact Option.noConfusion h
      · rw [updR_ne _ _ _ _ _ _ hc]
        exact h
  | runErr l1 l2 k' qid t' hw =>
      dsimp only
      have hmem : (⟨k', PC.run qid t'⟩ : Worker) ∈ s.workers := by
        rw [hw]
        exact mem_mid_self _ _ _
      have hnone := (hI.running _ hmem qid t' rfl).1
      by_cases hc : k = k' ∧ t = t'
      · exfalso
        rcases hc with ⟨rfl, rfl⟩
        rw [hnone] at h
        exact Option.noConfusion h
      · rw [updR_ne _ _ _ _ _ _ hc]
        exact h

/-! ### Claim theorems for the keyed serial executor -/

/-- C1: in every reachable state of `KeyedTaskQueue`, if the queue registered
for a key is non-empty then the key's active flag is set and a live worker
for the key exists — a submitted task is never stranded with no worker.
This holds for every interleaving the global lock permits, including a
submission racing the worker's drain-and-exit, because the emptiness check
plus deregistration (`cleanupYes`) and the enqueue plus activation check
(`submit`) are each one atomic transition under the same lock. -/
theorem no_stranded_task (s : SysState) (h : Reachable s) (k : String)
    (hne : pending s k ≠ []) :
    s.active k = true ∧ ∃ w ∈ s.workers, w.key = k := by
  have hI := inv_reachable h
  have hd : (s.dict k).isSome = true := by
    cases hd : s.dict k with
    | none => exact absurd (pending_of_none hd) hne
    | some q => rfl
  have hact := (hI.dictIff k).1 hd
  exact ⟨hact, (hI.activeIff k).1 hact⟩

/-- Witness for C1: after one `submit("A", task)` the queue for "A" is
non-empty, the flag is set and a worker for "A" is live. -/
theorem no_stranded_task_witness :
    trA1.active "A" = true ∧ ∃ w ∈ trA1.workers, w.key = "A" :=
  no_stranded_task trA1 reach_trA1 "A" (by decide)

/-- C2: in every reachable state, no two live workers serve the same key —
at most one worker is active per key.  Consequently two tasks for the same
key (in particular two Document Builder invocations submitted by concurrent
`get_album_pdf_path` calls with the same identifier) can never be in
execution at the same time: any two workers executing tasks for one key
would have to be the same worker. -/
theorem at_most_one_worker_per_key (s : SysState) (h : Reachable s) :
    s.workers.Pairwise (fun w1 w2 => w1.key ≠ w2.key) ∧
    (∀ w1 ∈ s.workers, ∀ w2 ∈ s.workers, ∀ q1 t1 q2 t2,
      w1.pc = PC.run q1 t1 → w2.pc = PC.run q2 t2 → w1.key = w2.key →
        w1 = w2) := by
  have hI := inv_reachable h
  exact ⟨hI.distinct, fun w1 h1 w2 h2 _ _ _ _ _ _ hk =>
    unique_key_mem hI.distinct h1 h2 hk⟩

/-- Witness for C2 at the state with one live worker per each of two keys. -/
theorem at_most_one_worker_per_key_witness :
    trA2.workers.Pairwise (fun w1 w2 => w1.key ≠ w2.key) :=
  (at_most_one_worker_per_key trA2 reach_trA2).1

/-- C3: tasks of one key start in submission order and never overlap — in
every reachable state the dequeued tasks of key `k` are exactly
`0, 1, ..., m-1` in submission order, and while task `t2` is executing every
earlier task `t1 < t2` of the same key already has its outcome delivered
(T1 completed before T2 began).  Tasks under different keys have no mutual
order: both the state where the "A" task finished while "B" has not run and
the state where the "B" task finished while "A" has not run are reachable. -/
theorem fifo_per_key :
    (∀ (s : SysState), Reachable s → ∀ (k : String),
        s.executed k = List.range (s.executed k).length ∧
        (∀ w ∈ s.workers, w.key = k → ∀ qid t2, w.pc = PC.run qid t2 →
          ∀ t1, t1 < t2 → (s.results k t1).isSome = true)) ∧
    (Reachable trA5 ∧ (trA5.results "A" 0).isSome = true ∧
      trA5.results "B" 0 = none) ∧
    (Reachable trB5 ∧ (trB5.results "B" 0).isSome = true ∧
      trB5.results "A" 0 = none) := by
  refine ⟨?_, ⟨reach_trA5, by decide, by decide⟩,
    ⟨reach_trB5, by decide, by decide⟩⟩
  intro s hreach k
  have hI := inv_reachable hreach
  have hex : s.executed k = List.range (s.executed k).length :=
    eq_range_of_append (hI.fifo k)
  refine ⟨hex, ?_⟩
  intro w hmem hkey qid t2 hpc t1 hlt
  obtain ⟨hnone2, hlast⟩ := hI.running w hmem qid t2 hpc
  rw [hkey] at hnone2 hlast
  have hlen : (s.executed k).length = t2 + 1 := by
    have h2 : (List.range (s.executed k).length).getLast? = some t2 := by
      rw [← hex]
      exact hlast
    exact range_getLast h2
  have ht1mem : t1 ∈ s.executed k := by
    rw [hex, hlen]
    exact List.mem_range.2 (by omega)
  by_contra hns
  have hnone3 : s.results k t1 = none := by
    cases hr : s.results k t1 with
    | none => rfl
    | some o =>
        rw [hr] at hns
        simp at hns
  obtain ⟨w2, hmem2, hkey2, qid2, hpc2⟩ := hI.complete k t1 ht1mem hnone3
  have heq : w2 = w := unique_key_mem hI.distinct hmem2 hmem (by rw [hkey2, hkey])
  rw [heq] at hpc2
  rw [hpc] at hpc2
  injection hpc2 with hq1 hq2
  omega

/-- Witness for C3 at a state with a completed "A" task. -/
theorem fifo_per_key_witness :
    trA5.executed "A" = List.range (trA5.executed "A").length :=
  (fifo_per_key.1 trA5 reach_trA5 "A").1

/-- C4: a `TaskResult` blocks its waiters until an outcome exists
(`trGet trInit = none`), then delivers exactly the value passed to `set` or
re-raises exactly the error passed to `set_error`; and in the executor the
outcome of a task's result, once set, is never overwritten along any
execution — every waiter, at any later reachable point, observes the same
single outcome, never a partial one. -/
theorem task_result_single_outcome :
    (∀ (V E : Type), trGet (@trInit V E) = none) ∧
    (∀ (V E : Type) (v : V), trGet (trSet v (@trInit V E))
        = some (Except.ok (some v))) ∧
    (∀ (V E : Type) (e : E), trGet (trSetError e (@trInit V E))
        = some (Except.error e)) ∧
    (∀ (s s' : SysState), Reachable s → Relation.ReflTransGen Step s s' →
      ∀ (k : String) (t : Nat) (o : Outcome),
        s.results k t = some o → s'.results k t = some o) := by
  refine ⟨fun V E => rfl, fun V E v => rfl, fun V E e => rfl, ?_⟩
  intro s s' hreach hrtg k t o h
  induction hrtg with
  | refl => exact h
  | tail hab hbc ih =>
      exact step_results_mono (inv_reachable (reachable_rtg hreach hab)) hbc ih

/-- Witness for C4: the completed "A" outcome survives a further step. -/
theorem task_result_single_outcome_witness :
    (submitEffect "B" trA5).results "A" 0 = some Outcome.ok :=
  task_result_single_outcome.2.2.2 trA5 (submitEffect "B" trA5) reach_trA5
    (Relation.ReflTransGen.single (Step.submit trA5 "B")) "A" 0 Outcome.ok
    (by decide)

/-- C5: when a task raises, the worker performs a legal `runErr` transition:
it stays alive (back at the top of its loop), the error is delivered to that
task's result and to no other result (`updR` changes only the `(k, t)`
entry), and no queue of any key is touched.  Failures are not sticky: the
execution in which the first "A" task fails and the second still runs to
success is reachable. -/
theorem task_failure_isolated :
    (∀ (s : SysState) (l1 l2 : List Worker) (k : String) (qid t : Nat),
      s.workers = l1 ++ ⟨k, PC.run qid t⟩ :: l2 →
      Step s { s with results := updR s.results k t (some Outcome.err),
                      workers := l1 ++ ⟨k, PC.loopTop⟩ :: l2 } ∧
      (⟨k, PC.loopTop⟩ : Worker) ∈ l1 ++ (⟨k, PC.loopTop⟩ : Worker) :: l2 ∧
      updR s.results k t (some Outcome.err) k t = some Outcome.err ∧
      (∀ (k' : String) (t' : Nat), ¬(k' = k ∧ t' = t) →
        updR s.results k t (some Outcome.err) k' t' = s.results k' t') ∧
      (∀ (k' : String),
        pending { s with results := updR s.results k t (some Outcome.err),
                         workers := l1 ++ ⟨k, PC.loopTop⟩ :: l2 } k'
          = pending s k')) ∧
    (Reachable trE8 ∧ trE8.results "A" 0 = some Outcome.err ∧
      trE8.results "A" 1 = some Outcome.ok) := by
  refine ⟨?_, reach_trE8, by decide, by decide⟩
  intro s l1 l2 k qid t hw
  exact ⟨Step.runErr s l1 l2 k qid t hw, mem_mid_self _ _ _,
    updR_same _ _ _ _, fun k' t' hc => updR_ne _ _ _ _ _ _ hc,
    fun k' => rfl⟩

/-- Witness for C5 at the reachable state whose "A" worker is mid-task. -/
theorem task_failure_isolated_witness :
    updR trE4.results "A" 0 (some Outcome.err) "A" 0 = some Outcome.err :=
  ((task_failure_isolated.1 trE4 [] [] "A" 0 0 (by decide)).2.2).1

/-! ### Claim theorems for the artifact cache resolver -/

/-- C6: if the destination artifact exists and satisfies the request's
requirements — for `encrypted=false` it is readable and not encrypted; for
`encrypted=true` it is readable, encrypted and `decrypt(jm_album_id)` returns
truthy — then `validate_or_build` takes the cache-hit path: it performs no
filesystem action (no `os.remove`, no `merge_webp_to_pdf`), leaves the file
unchanged, and `get_album_pdf_path` returns the existing destination path. -/
theorem cache_hit_no_rebuild (jmId pdfDir title : String) (titleType : Int)
    (enablePwd removeOk : Bool) (env : MergeEnv) (f : PdfFile)
    (hread : f.readOk = true)
    (hvalid : if enablePwd then
        f.isEncrypted = true ∧ f.decryptRes = DecResult.returns true
      else f.isEncrypted = false) :
    validate_or_build jmId enablePwd removeOk env (some f)
        = ⟨true, [], some f, Except.ok ()⟩ ∧
    get_album_pdf_path jmId pdfDir (Except.ok title) enablePwd titleType
        removeOk env (some f)
      = Except.ok
          (some (pdfDir ++ "/" ++ pdfFilename jmId (sanitize title) titleType),
           pdfFilename jmId (sanitize title) titleType) := by
  have huc : probeUseCache enablePwd f = true := by
    cases hpw : enablePwd with
    | false =>
        rw [hpw] at hvalid
        simp only [if_neg Bool.false_ne_true] at hvalid
        simp [probeUseCache, hread, hvalid]
    | true =>
        rw [hpw] at hvalid
        simp only [if_pos rfl] at hvalid
        simp [probeUseCache, hread, hvalid.1, hvalid.2]
  have hv : validate_or_build jmId enablePwd removeOk env (some f)
      = ⟨true, [], some f, Except.ok ()⟩ := by
    simp [validate_or_build, huc]
  refine ⟨hv, ?_⟩
  simp [get_album_pdf_path, hv]

/-- Witness for C6 at a concrete encrypted artifact whose credential is the
identifier. -/
theorem cache_hit_no_rebuild_witness :
    validate_or_build "1000" true true ⟨true, none⟩
        (some ⟨true, true, DecResult.returns true⟩)
      = ⟨true, [], some ⟨true, true, DecResult.returns true⟩, Except.ok ()⟩ :=
  (cache_hit_no_rebuild "1000" "pdf" "Sample" 2 true true ⟨true, none⟩
    ⟨true, true, DecResult.returns true⟩ rfl (by decide)).1

/-- C7: an existing unencrypted artifact under an `encrypted=true` request is
removed (here deletion succeeds) and the Document Builder is invoked with
password equal to the identifier, starting from the now-absent destination;
symmetrically an encrypted artifact under an `encrypted=false` request is
removed and the builder is invoked with no password. -/
theorem invalidate_and_rebuild (jmId : String) (env : MergeEnv) (f g : PdfFile)
    (hf1 : f.readOk = true) (hf2 : f.isEncrypted = false)
    (hg : g.isEncrypted = true) :
    validate_or_build jmId true true env (some f)
        = ⟨false, [Action.removeCall, Action.buildCall (some jmId)],
           (merge_webp_to_pdf jmId (some jmId) env none).1,
           (merge_webp_to_pdf jmId (some jmId) env none).2⟩ ∧
    validate_or_build jmId false true env (some g)
        = ⟨false, [Action.removeCall, Action.buildCall none],
           (merge_webp_to_pdf jmId none env none).1,
           (merge_webp_to_pdf jmId none env none).2⟩ := by
  have huf : probeUseCache true f = false := by
    simp [probeUseCache, hf1, hf2]
  have hug : probeUseCache false g = false := by
    simp [probeUseCache, hg]
  constructor
  · simp [validate_or_build, huf]
  · simp [validate_or_build, hug]

/-- Witness for C7 at concrete files and a fault-free build environment. -/
theorem invalidate_and_rebuild_witness :
    validate_or_build "1000" true true ⟨true, none⟩
        (some ⟨true, false, DecResult.returns false⟩)
      = ⟨false, [Action.removeCall, Action.buildCall (some "1000")],
         some (builtFile (some "1000") "1000"), Except.ok ()⟩ := by
  have h := (invalidate_and_rebuild "1000" ⟨true, none⟩
    ⟨true, false, DecResult.returns false⟩ ⟨true, true, DecResult.returns true⟩
    rfl rfl rfl).1
  rw [h]
  decide

/-- C8 counterexample: the destination holds an unencrypted file, the request
has `encrypted=true`, and `os.remove` fails (`OSError`, caught and logged).
The claim asserts the Document Builder is still invoked; in the code the
subsequent `pdf_path_obj.exists()` re-check sees the still-present file and
returns it as a cache hit, so no `buildCall` happens at all. -/
theorem remove_failure_skips_build_cex :
    (validate_or_build "123" true false ⟨true, none⟩
        (some ⟨true, false, DecResult.returns false⟩)).outcome = Except.ok () ∧
    (validate_or_build "123" true false ⟨true, none⟩
        (some ⟨true, false, DecResult.returns false⟩)).actions
        = [Action.removeCall] ∧
    Action.buildCall (some "123")
        ∉ (validate_or_build "123" true false ⟨true, none⟩
            (some ⟨true, false, DecResult.returns false⟩)).actions ∧
    Action.buildCall none
        ∉ (validate_or_build "123" true false ⟨true, none⟩
            (some ⟨true, false, DecResult.returns false⟩)).actions := by
  decide

/-- C8 as amended: when an existing artifact is deemed invalid, deletion is
attempted and a deletion failure is logged without failing the flow — but the
flow then does NOT fall through to building: the existence re-check sees the
still-present stale file, so `validate_or_build` returns it as a cache hit
and the Document Builder is not invoked. -/
theorem remove_failure_reuses_stale (jmId : String) (enablePwd : Bool)
    (env : MergeEnv) (f : PdfFile)
    (hinv : probeUseCache enablePwd f = false) :
    validate_or_build jmId enablePwd false env (some f)
      = ⟨true, [Action.removeCall], some f, Except.ok ()⟩ := by
  simp [validate_or_build, hinv]

/-- Witness for the amended C8 at a concrete stale unencrypted file. -/
theorem remove_failure_reuses_stale_witness :
    validate_or_build "123" true false ⟨true, none⟩
        (some ⟨true, false, DecResult.returns false⟩)
      = ⟨true, [Action.removeCall],
         some ⟨true, false, DecResult.returns false⟩, Except.ok ()⟩ :=
  remove_failure_reuses_stale "123" true ⟨true, none⟩
    ⟨true, false, DecResult.returns false⟩ (by decide)

/-- C9 counterexample: the build fails after the initial image merge has
written the full unencrypted document (the `PdfReader` read-back raises); the
error surfaces, yet the destination file still exists afterwards — no code
path removes it. -/
theorem failed_build_leaves_file_cex :
    (validate_or_build "42" true true ⟨true, some MergeFault.readBack⟩ none).outcome
        = Except.error MergeErr.libraryError ∧
    ((validate_or_build "42" true true ⟨true, some MergeFault.readBack⟩
        none).file).isSome = true := by
  decide

/-- C9 as amended: when the Document Builder step fails, the error is
surfaced to the caller unchanged (through the task result and
`get_album_pdf_path`), but the partially- or fully-written destination file
is NOT removed: a failure after the initial merge leaves the complete
unencrypted document at the destination path. -/
theorem failed_build_no_cleanup (jmId pdfDir title : String) (titleType : Int)
    (enablePwd removeOk : Bool) :
    (validate_or_build jmId enablePwd removeOk
        ⟨true, some MergeFault.readBack⟩ none).outcome
        = Except.error MergeErr.libraryError ∧
    (validate_or_build jmId enablePwd removeOk
        ⟨true, some MergeFault.readBack⟩ none).file
        = some (builtFile none jmId) ∧
    get_album_pdf_path jmId pdfDir (Except.ok title) enablePwd titleType
        removeOk ⟨true, some MergeFault.readBack⟩ none
        = Except.error (ServiceErr.buildError MergeErr.libraryError) := by
  cases hpw : enablePwd <;>
    simp [validate_or_build, merge_webp_to_pdf, get_album_pdf_path]

/-- C10: whenever `get_album_pdf_path` returns normally, the path component
of the returned pair is a present string, never `None`; the caller's
`if path is None` branch in `src/app/api/routes.py` is unreachable. -/
theorem pdf_path_never_none (jmId pdfDir : String)
    (titleRes : Except ServiceErr String) (enablePwd : Bool) (titleType : Int)
    (removeOk : Bool) (env : MergeEnv) (file0 : Option PdfFile)
    (pr : Option String × String)
    (h : get_album_pdf_path jmId pdfDir titleRes enablePwd titleType removeOk
        env file0 = Except.ok pr) :
    pr.1.isSome = true := by
  unfold get_album_pdf_path at h
  cases titleRes with
  | error e => simp at h
  | ok title =>
      simp only [] at h
      cases hv : (validate_or_build jmId enablePwd removeOk env file0).outcome with
      | error e => rw [hv] at h; simp at h
      | ok u => rw [hv] at h; simp at h; rw [← h]; rfl

/-- Witness for C10 on a concrete successful run. -/
theorem pdf_path_never_none_witness :
    ((some ("pdf/[1000] Sample.pdf") : Option String), "[1000] Sample.pdf").1.isSome
      = true :=
  pdf_path_never_none "1000" "pdf" (Except.ok "Sample") true 2 true
    ⟨true, none⟩ none (some "pdf/[1000] Sample.pdf", "[1000] Sample.pdf")
    (by decide)

end JMComicApi
